import Mathlib

/-!
# Verification of the tool_master core (tool abstraction layer)

Shallow embedding of `src/tool_master/schemas/tool.py`,
`src/tool_master/registry/registry.py`, `src/tool_master/executors/base.py`,
`src/tool_master/executors/generic.py` and `src/tool_master/executors/mcp.py`.

Python dynamic values are modelled by the inductive `Value` (with `vnone` for
Python's `None`); Python dicts by association lists with Python-dict update
semantics (update in place, new keys appended at the end); raising an
exception by `Except.error msg` where `msg` plays the role of `str(e)`;
Python sets of strings by duplicate-free lists with add/discard.
Awaitable handler results are elided: a handler returns its settled value
(or raises), which is what `Tool.execute` observes after its await step.
-/

set_option autoImplicit false

namespace ToolMaster

/-- Model of a dynamic (Python) value. `vnone` is Python's `None`. -/
inductive Value where
  | vnone
  | vstr (s : String)
  | vint (n : Int)
  | vbool (b : Bool)
  | vlist (l : List Value)
  | vdict (l : List (String × Value))

/-- Python's `x is None` identity test. -/
def Value.isNone : Value → Bool
  | .vnone => true
  | _ => false

/-- Python's `isinstance(x, str)` test. -/
def Value.isStr : Value → Bool
  | .vstr _ => true
  | _ => false

/-- A Python dict with string keys, as an association list (insertion order). -/
abbrev Dict := List (String × Value)

/-- Dict lookup: `d[k]` / `d.get(k)`. Dicts built by `dictInsert` have unique
keys, so first match is the binding. -/
def dictLookup {α : Type} (d : List (String × α)) (k : String) : Option α :=
  match d with
  | [] => none
  | (k', v) :: t => if k' = k then some v else dictLookup t k

/-- `k in d` for a Python dict. -/
def dictMem {α : Type} (d : List (String × α)) (k : String) : Bool :=
  (dictLookup d k).isSome

/-- `d[k] = v` on a Python dict: update in place if the key exists, otherwise
append the new binding at the end (Python dicts preserve insertion order). -/
def dictInsert {α : Type} (d : List (String × α)) (k : String) (v : α) :
    List (String × α) :=
  match d with
  | [] => [(k, v)]
  | (k', v') :: t => if k' = k then (k, v) :: t else (k', v') :: dictInsert t k v

/-- `ParameterType` from `schemas/tool.py`: the closed set of parameter kinds. -/
inductive ParameterType where
  | string
  | integer
  | number
  | boolean
  | array
  | object
deriving DecidableEq

/-- `.value` of the Python `str`-enum `ParameterType`. -/
def ParameterType.value (pt : ParameterType) : String :=
  match pt with
  | .object => "object"
  | .array => "array"
  | .boolean => "boolean"
  | .number => "number"
  | .integer => "integer"
  | .string => "string"

/-- `ToolParameter` from `schemas/tool.py`. `default : Value` with `vnone` as
the pydantic default `None` (an unset default and an explicit `None` default
coincide in the source, both being `None`). -/
structure ToolParameter where
  name : String
  type : ParameterType
  description : String
  required : Bool := true
  default : Value := Value.vnone
  enum : Option (List Value) := none
  items_type : Option ParameterType := none

/-- `ToolResult` from `schemas/tool.py`: `success`, `data` (Python `None`
modelled as `vnone`), `error` (`Optional[str]`). -/
structure ToolResult where
  success : Bool
  data : Value := Value.vnone
  error : Option String := none

/-- `ToolResult.ok(data)`. -/
def ToolResult.ok (data : Value) : ToolResult :=
  { success := true, data := data }

/-- `ToolResult.fail(error)`. -/
def ToolResult.fail (error : String) : ToolResult :=
  { success := false, error := some error }

/-- A handler: receives the keyword arguments, returns a settled value or
raises (`Except.error msg` with `msg = str(e)`). -/
abbrev Handler := Dict → Except String Value

/-- `Tool` from `schemas/tool.py`. The `_handler` field is `none` until
`set_handler` binds one. -/
structure Tool where
  name : String
  description : String
  parameters : List ToolParameter := []
  category : Option String := none
  tags : List String := []
  version : String := "1.0.0"
  handler : Option Handler := none

/-- `Tool.set_handler`. -/
def Tool.set_handler (t : Tool) (h : Handler) : Tool :=
  { t with handler := some h }

/-- The `for param in self.parameters` loop of `Tool.execute` followed by the
handler invocation: for each parameter, if it is required and absent from
`kwargs`, fail when its default is `None`, otherwise inject the default into
`kwargs`; after the loop, invoke the handler on `kwargs` and wrap its outcome
(`ok` on a value, `fail (str e)` on an exception). -/
def execLoop (h : Handler) : List ToolParameter → Dict → ToolResult
  | [], kwargs =>
    match h kwargs with
    | .ok v => ToolResult.ok v
    | .error e => ToolResult.fail e
  | p :: rest, kwargs =>
    if p.required && !(dictMem kwargs p.name) then
      if p.default.isNone then
        ToolResult.fail ("Missing required parameter: " ++ p.name)
      else
        execLoop h rest (dictInsert kwargs p.name p.default)
    else
      execLoop h rest kwargs

/-- `Tool.execute` from `schemas/tool.py`: fail when no handler is bound,
otherwise run the required-parameter/default loop and the handler, converting
any exception into `fail (str e)`. Total by construction: it always returns a
`ToolResult`. -/
def Tool.execute (t : Tool) (kwargs : Dict) : ToolResult :=
  match t.handler with
  | none => ToolResult.fail ("No handler set for tool '" ++ t.name ++ "'")
  | some h => execLoop h t.parameters kwargs

/-- `Tool.to_json_schema` property entry: the dict built for one parameter
(`type`, `description`, optional `enum`, optional `items`). `items` holds the
`type` string of the array item kind. -/
structure PropEntry where
  type : String
  description : String
  enum : Option (List Value) := none
  items : Option String := none

/-- The JSON-Schema dict returned by `Tool.to_json_schema`:
`{"type": "object", "properties": ..., "required": ...}` with `properties` a
dict in insertion order. -/
structure JsonSchema where
  type : String
  properties : List (String × PropEntry)
  required : List String

/-- The property entry `to_json_schema` builds for one parameter: always
`type` and `description`; `enum` only when the parameter's enum is truthy
(present and non-empty, Python `if param.enum:`); `items` only when the
parameter type is array and `items_type` is set. -/
def mkProp (p : ToolParameter) : PropEntry :=
  { type := p.type.value
    description := p.description
    enum := match p.enum with
      | some es => if es.isEmpty then none else some es
      | none => none
    items := match p.type, p.items_type with
      | .array, some it => some it.value
      | _, _ => none }

/-- The `for param in self.parameters` loop of `to_json_schema`, carrying the
`properties` dict and the `required` list being built. -/
def schemaLoop : List ToolParameter → List (String × PropEntry) → List String →
    JsonSchema
  | [], props, req => { type := "object", properties := props, required := req }
  | p :: rest, props, req =>
    schemaLoop rest (dictInsert props p.name (mkProp p))
      (if p.required then req ++ [p.name] else req)

/-- `Tool.to_json_schema` from `schemas/tool.py`. -/
def Tool.to_json_schema (t : Tool) : JsonSchema :=
  schemaLoop t.parameters [] []

/-- Python `sep.join(strings)`. -/
def joinSep (sep : String) : List String → String
  | [] => ""
  | [x] => x
  | x :: xs => x ++ sep ++ joinSep sep xs

/-- `BaseExecutor.validate_arguments` from `executors/base.py`: one message
per required parameter absent from the raw arguments (not consulting
`default`), then one message per argument key that is not a declared
parameter name, in iteration order. -/
def validate_arguments (t : Tool) (arguments : Dict) : List String :=
  (t.parameters.filterMap fun p =>
    if p.required && !(dictMem arguments p.name) then
      some ("Missing required parameter: " ++ p.name)
    else none)
  ++
  (arguments.filterMap fun kv =>
    if kv.1 ∈ t.parameters.map ToolParameter.name then none
    else some ("Unknown parameter: " ++ kv.1))

/-- `GenericExecutor.execute` from `executors/generic.py`: fail with the
joined validation messages when validation produces any, otherwise delegate
to `Tool.execute` unchanged. -/
def GenericExecutor.execute (t : Tool) (arguments : Dict) : ToolResult :=
  let errors := validate_arguments t arguments
  if !errors.isEmpty then ToolResult.fail (joinSep "; " errors)
  else Tool.execute t arguments

/-- `needle` occurs as a substring of `hay`. -/
def strContains (hay needle : String) : Prop :=
  needle.data <:+: hay.data

/-- An MCP content block `{"type": ..., "text": ...}` (only text blocks are
produced by the source). -/
structure ContentBlock where
  type : String
  text : String

mutual
/-- Model of `json.dumps` on our dynamic values (string escaping elided; no
claim depends on the serialized text). -/
def jsonDumps : Value → String
  | .vnone => "null"
  | .vstr s => "\"" ++ s ++ "\""
  | .vint n => toString n
  | .vbool b => if b then "true" else "false"
  | .vlist l => "[" ++ jsonDumpsList l ++ "]"
  | .vdict l => "\x7b" ++ jsonDumpsDict l ++ "\x7d"

/-- `json.dumps` of a list's elements, comma separated. -/
def jsonDumpsList : List Value → String
  | [] => ""
  | [x] => jsonDumps x
  | x :: xs => jsonDumps x ++ ", " ++ jsonDumpsList xs

/-- `json.dumps` of a dict's entries, comma separated. -/
def jsonDumpsDict : List (String × Value) → String
  | [] => ""
  | [kv] => "\"" ++ kv.1 ++ "\": " ++ jsonDumps kv.2
  | kv :: kvs => "\"" ++ kv.1 ++ "\": " ++ jsonDumps kv.2 ++ ", " ++ jsonDumpsDict kvs
end

/-- `MCPExecutor._serialize_content` from `executors/mcp.py`: `None` becomes
an empty text block, a string becomes itself, anything else is JSON
serialized. -/
def serialize_content (data : Value) : List ContentBlock :=
  match data with
  | .vnone => [⟨"text", ""⟩]
  | .vstr s => [⟨"text", s⟩]
  | d => [⟨"text", jsonDumps d⟩]

/-- An MCP CallToolResult: `content` blocks, `isError`, and the optional
`structuredContent` key (`none` when the key is absent from the dict). -/
structure CallToolResult where
  content : List ContentBlock
  isError : Bool
  structuredContent : Option Value := none

/-- `MCPExecutor.format_result` from `executors/mcp.py`. On failure the text
is `result.error or "Unknown error"` (Python `or`: `None` and `""` both fall
back). -/
def MCPExecutor.format_result (result : ToolResult) : CallToolResult :=
  if result.success then
    { content := serialize_content result.data, isError := false }
  else
    { content := [⟨"text",
        match result.error with
        | some e => if e.isEmpty then "Unknown error" else e
        | none => "Unknown error"⟩],
      isError := true }

/-- `MCPExecutor.format_call_tool_result` from `executors/mcp.py`: the
`format_result` rendering, with `structuredContent := result.data` added
exactly when `structured` is set, the result succeeded, the data is not
`None`, and the data is not a string. -/
def MCPExecutor.format_call_tool_result (result : ToolResult)
    (structured : Bool) : CallToolResult :=
  let response := MCPExecutor.format_result result
  if structured && result.success && !(result.data.isNone) then
    if !(result.data.isStr) then
      { response with structuredContent := some result.data }
    else response
  else response

/-- A Python `set` of tool names: a duplicate-free list (built only through
`setAdd`/`setDiscard`; the claims are about membership, not order). -/
abbrev NameSet := List String

/-- `s.add(x)`. -/
def setAdd (s : NameSet) (x : String) : NameSet :=
  if x ∈ s then s else s ++ [x]

/-- `s.discard(x)`: removes `x` if present, no-op otherwise. -/
def setDiscard (s : NameSet) (x : String) : NameSet :=
  s.filter (fun y => y != x)

/-- `ToolRegistry` state from `registry/registry.py`: primary name→Tool dict
and the two secondary indices. -/
structure Registry where
  tools : List (String × Tool) := []
  categories : List (String × NameSet) := []
  tags : List (String × NameSet) := []

/-- `if k not in m: m[k] = set()` followed by `m[k].add(x)`. -/
def mapAddName (m : List (String × NameSet)) (k x : String) :
    List (String × NameSet) :=
  match m with
  | [] => [(k, setAdd [] x)]
  | (k', s) :: t =>
    if k' = k then (k', setAdd s x) :: t else (k', s) :: mapAddName t k x

/-- `if k in m: m[k].discard(x)` (no-op on keys other than `k` and when `k`
is absent). -/
def mapDiscardName (m : List (String × NameSet)) (k x : String) :
    List (String × NameSet) :=
  m.map (fun e => if e.1 = k then (e.1, setDiscard e.2 x) else e)

/-- `m.pop(k)`'s effect on the mapping (the entry with key `k` removed). -/
def eraseKey {α : Type} (d : List (String × α)) (k : String) :
    List (String × α) :=
  d.filter (fun e => e.1 != k)

/-- `ToolRegistry.register`: returns the raised `ValueError` message (`some`)
with the state unchanged when the name is already registered, otherwise
`none` and the updated state: the tool is stored, its name is added to its
category's index set (when the category is truthy) and to each of its tags'
index sets. -/
def Registry.register (r : Registry) (t : Tool) : Option String × Registry :=
  if dictMem r.tools t.name then
    (some ("Tool '" ++ t.name ++ "' is already registered"), r)
  else
    (none,
      { tools := dictInsert r.tools t.name t
        categories :=
          match t.category with
          | some c => if c.isEmpty then r.categories else mapAddName r.categories c t.name
          | none => r.categories
        tags := t.tags.foldl (fun m tg => mapAddName m tg t.name) r.tags })

/-- `ToolRegistry.unregister`: pops the tool (returning `none` when absent)
and discards its name from its category's and tags' index sets. -/
def Registry.unregister (r : Registry) (n : String) : Option Tool × Registry :=
  match dictLookup r.tools n with
  | none => (none, r)
  | some t =>
    (some t,
      { tools := eraseKey r.tools n
        categories :=
          match t.category with
          | some c => if c.isEmpty then r.categories else mapDiscardName r.categories c n
          | none => r.categories
        tags := t.tags.foldl (fun m tg => mapDiscardName m tg n) r.tags })

/-- `ToolRegistry.get_by_category`: resolve the index set, then re-filter
against the primary mapping. -/
def Registry.get_by_category (r : Registry) (c : String) : List Tool :=
  ((dictLookup r.categories c).getD []).filterMap (fun n => dictLookup r.tools n)

/-- `ToolRegistry.get_by_tag`: resolve the index set, then re-filter against
the primary mapping. -/
def Registry.get_by_tag (r : Registry) (tg : String) : List Tool :=
  ((dictLookup r.tags tg).getD []).filterMap (fun n => dictLookup r.tools n)

/-- `set.intersection(*tag_sets)` on a non-empty list of sets. -/
def interAll : List NameSet → NameSet
  | [] => []
  | s :: rest =>
    rest.foldl (fun acc t => acc.filter (fun x => decide (x ∈ t))) s

/-- `set.union(*tag_sets)` on a non-empty list of sets (elements of a later
set are appended only when not already present, keeping sets
duplicate-free). -/
def unionAll : List NameSet → NameSet
  | [] => []
  | s :: rest =>
    rest.foldl (fun acc t => acc ++ t.filter (fun x => decide (x ∉ acc))) s

/-- `ToolRegistry.get_by_tags` from `registry/registry.py`. -/
def Registry.get_by_tags (r : Registry) (tags : List String)
    (match_all : Bool) : List Tool :=
  if tags.isEmpty then []
  else
    let tag_sets := tags.map (fun tg => (dictLookup r.tags tg).getD [])
    let matching := if match_all then interAll tag_sets else unionAll tag_sets
    matching.filterMap (fun n => dictLookup r.tools n)

/-- A registry mutation: a `register` call (a failed one leaves the state
unchanged, the exception propagating to the caller) or an `unregister`
call. -/
inductive ROp where
  | reg (t : Tool)
  | unreg (n : String)

/-- The state after one registry operation. -/
def applyOp (r : Registry) : ROp → Registry
  | .reg t => (r.register t).2
  | .unreg n => (r.unregister n).2

/-- A fresh `ToolRegistry()`. -/
def emptyRegistry : Registry := {}

/-- The registry state reached from a fresh registry by a sequence of
operations. -/
def runOps (ops : List ROp) : Registry :=
  ops.foldl applyOp emptyRegistry

/-- A heap of Python dict objects: the reference `r` denotes the dict at
index `r`; allocation appends. Used to model aliasing and in-place mutation
of argument dicts. -/
abbrev Heap := List Dict

/-- Dereference. -/
def heapGet (h : Heap) (r : Nat) : Dict :=
  h.getD r []

/-- In-place update of the dict object at `r`. -/
def heapSet (h : Heap) (r : Nat) (d : Dict) : Heap :=
  h.set r d

/-- The parameter loop of `Tool.execute` acting on the kwargs dict object at
reference `r`: default injection is an in-place mutation of that dict
(`kwargs[param.name] = param.default`). -/
def execLoopRef (hdl : Handler) :
    List ToolParameter → Heap → Nat → ToolResult × Heap
  | [], hp, r =>
    (match hdl (heapGet hp r) with
     | .ok v => ToolResult.ok v
     | .error e => ToolResult.fail e, hp)
  | p :: rest, hp, r =>
    if p.required && !(dictMem (heapGet hp r) p.name) then
      if p.default.isNone then
        (ToolResult.fail ("Missing required parameter: " ++ p.name), hp)
      else
        execLoopRef hdl rest
          (heapSet hp r (dictInsert (heapGet hp r) p.name p.default)) r
    else execLoopRef hdl rest hp r

/-- `Tool.execute` on the kwargs dict object at reference `r`. -/
def Tool.executeRef (t : Tool) (hp : Heap) (r : Nat) : ToolResult × Heap :=
  match t.handler with
  | none => (ToolResult.fail ("No handler set for tool '" ++ t.name ++ "'"), hp)
  | some h => execLoopRef h t.parameters hp r

/-- `GenericExecutor.execute` with the caller's arguments dict living at
reference `r`: the call `tool.execute(**arguments)` splats the caller's dict
into a freshly allocated kwargs dict, so `Tool.execute` runs on the new
reference `hp.length`, never on `r`. -/
def GenericExecutor.executeRef (t : Tool) (hp : Heap) (r : Nat) :
    ToolResult × Heap :=
  let args := heapGet hp r
  let errors := validate_arguments t args
  if !errors.isEmpty then (ToolResult.fail (joinSep "; " errors), hp)
  else Tool.executeRef t (hp ++ [args]) hp.length

/-- Specification-level view of the parameter loop of `Tool.execute`: either
the name of the first required parameter that is absent and has no default,
or the effective argument dict (the original arguments plus injected
defaults). -/
def injectDefaults : List ToolParameter → Dict → Except String Dict
  | [], kwargs => .ok kwargs
  | p :: rest, kwargs =>
    if p.required && !(dictMem kwargs p.name) then
      if p.default.isNone then
        .error p.name
      else
        injectDefaults rest (dictInsert kwargs p.name p.default)
    else
      injectDefaults rest kwargs

/-- A handler that always raises an exception with message `boom`. -/
def raiseBoom : Handler := fun _ => .error "boom"

/-- A handler returning its keyword arguments as a dict value. -/
def echoHandler : Handler := fun d => .ok (Value.vdict d)

/-- A required string parameter `x` with no default. -/
def paramX : ToolParameter :=
  { name := "x", type := .string, description := "the x parameter" }

/-- A required string parameter `y` carrying the default `"d"`. -/
def paramY : ToolParameter :=
  { name := "y", type := .string, description := "the y parameter",
    default := Value.vstr "d" }

/-- An optional integer parameter `b` (no default). -/
def paramB : ToolParameter :=
  { name := "b", type := .integer, description := "the b parameter",
    required := false }

/-- A tool with no parameters whose handler always raises. -/
def boomTool : Tool :=
  { name := "boom", description := "always raises", handler := some raiseBoom }

/-- A tool with the single required, default-less parameter `x`. -/
def xTool : Tool :=
  { name := "xt", description := "needs x", parameters := [paramX],
    handler := some echoHandler }

/-- A tool with the single required parameter `y` that carries a default. -/
def yTool : Tool :=
  { name := "yt", description := "defaults y", parameters := [paramY],
    handler := some echoHandler }

/-- A schema-only tool with parameters `x` (required) and `b` (optional). -/
def xbTool : Tool :=
  { name := "xbt", description := "x and b", parameters := [paramX, paramB] }

/-- A tool named `T1` tagged `x`, `y`. -/
def t1 : Tool :=
  { name := "T1", description := "first", category := some "cat",
    tags := ["x", "y"] }

/-- A tool named `T2` tagged `y`, `z`. -/
def t2 : Tool :=
  { name := "T2", description := "second", tags := ["y", "z"] }

/-- The registry holding `T1{tags:[x,y]}` and `T2{tags:[y,z]}` (the spec's
tag-query example). -/
def regXZ : Registry :=
  runOps [ROp.reg t1, ROp.reg t2]

/-- Inductive invariant of reachable registry states: every name in a
category index set belongs to a registered tool whose category is that
(non-empty) key, and every name in a tag index set belongs to a registered
tool carrying that tag. It implies the claimed invariant (index names exist
in the primary mapping). -/
def RegInv (r : Registry) : Prop :=
  (∀ e ∈ r.categories, ∀ n ∈ e.2, ∃ t, dictLookup r.tools n = some t ∧
    t.category = some e.1 ∧ e.1.isEmpty = false)
  ∧ (∀ e ∈ r.tags, ∀ n ∈ e.2, ∃ t, dictLookup r.tools n = some t ∧
    e.1 ∈ t.tags)

/-- The execution loop factors through `injectDefaults`: it fails with the
missing-parameter message, or runs the handler on the effective arguments. -/
theorem execLoop_eq (h : Handler) (params : List ToolParameter) (kwargs : Dict) :
    execLoop h params kwargs =
      match injectDefaults params kwargs with
      | .error n => ToolResult.fail ("Missing required parameter: " ++ n)
      | .ok d =>
        match h d with
        | .ok v => ToolResult.ok v
        | .error e => ToolResult.fail e := by
  induction params generalizing kwargs with
  | nil => rfl
  | cons p rest ih =>
    simp only [execLoop, injectDefaults]
    by_cases h1 : (p.required && !(dictMem kwargs p.name)) = true
    · by_cases h2 : p.default.isNone = true
      · simp [h1, h2]
      · simp [h1, h2, ih]
    · simp [h1, ih]

theorem dictLookup_dictInsert_self {α : Type} (d : List (String × α))
    (k : String) (v : α) : dictLookup (dictInsert d k v) k = some v := by
  induction d with
  | nil => simp [dictInsert, dictLookup]
  | cons e t ih =>
    obtain ⟨k1, v1⟩ := e
    by_cases h : k1 = k
    · simp [dictInsert, h, dictLookup]
    · simp [dictInsert, h, dictLookup, ih]

/-- Lookup after a dict assignment: the assigned key maps to the new value,
every other key is untouched. -/
theorem dictLookup_dictInsert {α : Type} (d : List (String × α))
    (k k' : String) (v : α) :
    dictLookup (dictInsert d k v) k' =
      if k = k' then some v else dictLookup d k' := by
  induction d with
  | nil => simp [dictInsert, dictLookup]
  | cons e t ih =>
    obtain ⟨k1, v1⟩ := e
    by_cases h1 : k1 = k
    · subst h1
      by_cases h2 : k1 = k' <;> simp [dictInsert, dictLookup, h2]
    · by_cases h2 : k1 = k'
      · subst h2
        have h3 : ¬k = k1 := fun h => h1 h.symm
        simp [dictInsert, dictLookup, h1, h3]
      · simp [dictInsert, dictLookup, h1, h2, ih]

theorem dictMem_dictInsert_self {α : Type} (d : List (String × α))
    (k : String) (v : α) : dictMem (dictInsert d k v) k = true := by
  simp [dictMem, dictLookup_dictInsert]

theorem dictMem_dictInsert_of_mem {α : Type} (d : List (String × α))
    (k k' : String) (v : α) (h : dictMem d k' = true) :
    dictMem (dictInsert d k v) k' = true := by
  by_cases h1 : k = k'
  · subst h1; exact dictMem_dictInsert_self d k v
  · simpa [dictMem, dictLookup_dictInsert, h1] using h

theorem injectDefaults_all_present (params : List ToolParameter) (d : Dict)
    (h : ∀ q ∈ params, q.required = true → dictMem d q.name = true) :
    injectDefaults params d = .ok d := by
  induction params with
  | nil => rfl
  | cons p rest ih =>
    have hcond : (p.required && !(dictMem d p.name)) = false := by
      cases hreq : p.required with
      | false => simp
      | true => simp [h p (List.mem_cons_self p rest) hreq]
    simp only [injectDefaults, hcond, Bool.false_eq_true, if_false]
    exact ih (fun q hq => h q (List.mem_cons_of_mem _ hq))

/-- When `p` is the only required parameter absent from `args`, the default
pass either stops at `p` (no default) or just injects `p`'s default. -/
theorem injectDefaults_unique_missing (params : List ToolParameter)
    (p : ToolParameter) (args : Dict)
    (hp : p ∈ params) (hreq : p.required = true)
    (habs : dictMem args p.name = false)
    (honly : ∀ q ∈ params, q ≠ p → q.required = true →
      dictMem args q.name = true) :
    injectDefaults params args =
      if p.default.isNone then .error p.name
      else .ok (dictInsert args p.name p.default) := by
  induction params with
  | nil => cases hp
  | cons q rest ih =>
    by_cases hqp : q = p
    · subst hqp
      have hcond : (q.required && !(dictMem args q.name)) = true := by
        simp [hreq, habs]
      by_cases hdef : q.default.isNone = true
      · simp [injectDefaults, hcond, hdef]
      · simp only [injectDefaults, hcond, if_true, hdef, Bool.false_eq_true,
          if_false, eq_self_iff_true]
        apply injectDefaults_all_present
        intro r hr hrreq
        by_cases hrq : r.name = q.name
        · rw [hrq]; exact dictMem_dictInsert_self args q.name q.default
        · by_cases hrp : r = q
          · exact absurd (congrArg ToolParameter.name hrp) hrq
          · exact dictMem_dictInsert_of_mem args q.name r.name q.default
              (honly r (List.mem_cons_of_mem _ hr) hrp hrreq)
    · have hq : q.required = true → dictMem args q.name = true :=
        honly q (List.mem_cons_self q rest) hqp
      have hcond : (q.required && !(dictMem args q.name)) = false := by
        cases hreq2 : q.required with
        | false => simp
        | true => simp [hq hreq2]
      simp only [injectDefaults, hcond, Bool.false_eq_true, if_false]
      have hp' : p ∈ rest := by
        rcases List.mem_cons.mp hp with h | h
        · exact absurd h.symm hqp
        · exact h
      exact ih hp' (fun r hr => honly r (List.mem_cons_of_mem _ hr))

/-- C1: for every Tool with a bound handler and every argument map,
`Tool.execute` returns a `ToolResult` (it is total by construction, so no
exception propagates), and when the handler raises on the effective argument
set the result is `fail (str e)`: a failure whose error message equals the
exception's message. -/
theorem execute_catches_handler_exception
    (t : Tool) (h : Handler) (args d : Dict) (msg : String)
    (hh : t.handler = some h)
    (hd : injectDefaults t.parameters args = .ok d)
    (hr : h d = .error msg) :
    Tool.execute t args = ToolResult.fail msg := by
  simp [Tool.execute, hh, execLoop_eq, hd, hr]

theorem execute_catches_handler_exception_witness :
    Tool.execute boomTool [] = ToolResult.fail "boom" :=
  execute_catches_handler_exception boomTool raiseBoom [] [] "boom" rfl rfl rfl

/-- C2: for every Tool with a bound handler, when the required parameter `p`
is absent from the arguments (and it is the only such parameter): if its
default is unset (`None`), `Tool.execute` fails with
`Missing required parameter: <name>` — for every possible handler, so the
handler is not invoked — and otherwise the default is injected into the
effective argument set and the handler is invoked with it. -/
theorem execute_missing_required_parameter
    (t : Tool) (h : Handler) (p : ToolParameter) (args : Dict)
    (hh : t.handler = some h)
    (hp : p ∈ t.parameters) (hreq : p.required = true)
    (habs : dictMem args p.name = false)
    (honly : ∀ q ∈ t.parameters, q ≠ p → q.required = true →
      dictMem args q.name = true) :
    (p.default.isNone = true →
      Tool.execute t args =
        ToolResult.fail ("Missing required parameter: " ++ p.name))
    ∧ (p.default.isNone = false →
      Tool.execute t args =
        match h (dictInsert args p.name p.default) with
        | .ok v => ToolResult.ok v
        | .error e => ToolResult.fail e) := by
  have key := injectDefaults_unique_missing t.parameters p args hp hreq habs honly
  constructor
  · intro hdef
    rw [if_pos hdef] at key
    simp [Tool.execute, hh, execLoop_eq, key]
  · intro hdef
    rw [if_neg (by simp [hdef])] at key
    simp only [Tool.execute, hh, execLoop_eq, key]

theorem execute_missing_required_parameter_witness :
    Tool.execute xTool [] = ToolResult.fail "Missing required parameter: x"
    ∧ Tool.execute yTool [] =
        ToolResult.ok (Value.vdict [("y", Value.vstr "d")]) :=
  ⟨(execute_missing_required_parameter xTool echoHandler paramX [] rfl
      (List.mem_singleton.mpr rfl) rfl rfl
      (fun q hq hne _ => absurd (List.mem_singleton.mp hq) hne)).1 rfl,
   (execute_missing_required_parameter yTool echoHandler paramY [] rfl
      (List.mem_singleton.mpr rfl) rfl rfl
      (fun q hq hne _ => absurd (List.mem_singleton.mp hq) hne)).2 rfl⟩

/-- Every message in the list occurs as a substring of the joined string. -/
theorem strContains_joinSep (sep s : String) (l : List String) (hs : s ∈ l) :
    strContains (joinSep sep l) s := by
  induction l with
  | nil => cases hs
  | cons x xs ih =>
    cases xs with
    | nil =>
      rcases List.mem_singleton.mp hs with rfl
      exact List.infix_refl _
    | cons y ys =>
      rcases List.mem_cons.mp hs with rfl | h
      · show s.data <:+: (s ++ sep ++ joinSep sep (y :: ys)).data
        rw [String.data_append, String.data_append]
        exact ((List.prefix_append s.data sep.data).trans
          (List.prefix_append _ _)).isInfix
      · have hinf : s.data <:+: (joinSep sep (y :: ys)).data := ih h
        show s.data <:+: (x ++ sep ++ joinSep sep (y :: ys)).data
        rw [String.data_append, String.data_append]
        exact hinf.trans (List.suffix_append _ _).isInfix

theorem missing_msg_mem_validate (t : Tool) (args : Dict) (p : ToolParameter)
    (hp : p ∈ t.parameters) (hreq : p.required = true)
    (habs : dictMem args p.name = false) :
    ("Missing required parameter: " ++ p.name) ∈ validate_arguments t args :=
  List.mem_append_left _
    (List.mem_filterMap.mpr ⟨p, hp, by simp [hreq, habs]⟩)

theorem unknown_msg_mem_validate (t : Tool) (args : Dict) (k : String)
    (v : Value) (hkv : (k, v) ∈ args)
    (hk : k ∉ t.parameters.map ToolParameter.name) :
    ("Unknown parameter: " ++ k) ∈ validate_arguments t args :=
  List.mem_append_right _
    (List.mem_filterMap.mpr ⟨(k, v), hkv, by simp [hk]⟩)

theorem executor_fail_of_validate_ne_nil (t : Tool) (args : Dict)
    (hne : validate_arguments t args ≠ []) :
    GenericExecutor.execute t args =
      ToolResult.fail (joinSep "; " (validate_arguments t args)) := by
  cases herr : validate_arguments t args with
  | nil => exact absurd herr hne
  | cons a as => simp [GenericExecutor.execute, herr]

/-- C3: for every Tool having a parameter that is both required and carries a
default, and every argument map omitting it while all other validation
passes, the Executor path fails with a message containing
`Missing required parameter: <name>` (for every possible handler, so the
Tool is not invoked), while the direct `Tool.execute` path injects the
default and succeeds with the handler's value. -/
theorem executor_strict_direct_lenient_divergence
    (t : Tool) (h : Handler) (p : ToolParameter) (args : Dict) (v : Value)
    (hh : t.handler = some h)
    (hp : p ∈ t.parameters) (hreq : p.required = true)
    (hdef : p.default.isNone = false)
    (habs : dictMem args p.name = false)
    (honly : ∀ q ∈ t.parameters, q ≠ p → q.required = true →
      dictMem args q.name = true)
    (hknown : ∀ kv ∈ args, kv.1 ∈ t.parameters.map ToolParameter.name)
    (hok : h (dictInsert args p.name p.default) = .ok v) :
    (∃ m, GenericExecutor.execute t args = ToolResult.fail m ∧
       strContains m ("Missing required parameter: " ++ p.name))
    ∧ Tool.execute t args = ToolResult.ok v := by
  have hmem := missing_msg_mem_validate t args p hp hreq habs
  have hne : validate_arguments t args ≠ [] := List.ne_nil_of_mem hmem
  refine ⟨⟨joinSep "; " (validate_arguments t args),
    executor_fail_of_validate_ne_nil t args hne,
    strContains_joinSep _ _ _ hmem⟩, ?_⟩
  have hdirect :=
    (execute_missing_required_parameter t h p args hh hp hreq habs honly).2 hdef
  rw [hdirect, hok]

theorem executor_strict_direct_lenient_divergence_witness :
    (∃ m, GenericExecutor.execute yTool [] = ToolResult.fail m ∧
       strContains m ("Missing required parameter: " ++ paramY.name))
    ∧ Tool.execute yTool [] =
        ToolResult.ok (Value.vdict [("y", Value.vstr "d")]) :=
  executor_strict_direct_lenient_divergence yTool echoHandler paramY []
    (Value.vdict [("y", Value.vstr "d")]) rfl (List.mem_singleton.mpr rfl)
    rfl rfl rfl
    (fun q hq hne _ => absurd (List.mem_singleton.mp hq) hne)
    (fun kv hkv => absurd hkv (List.not_mem_nil kv))
    rfl

/-- C4: for every Tool and argument map with an undeclared key, the
Executor's execute fails with a message containing `Unknown parameter: <key>`
(for every possible handler, so the handler is never invoked); and when
validation yields no messages, the Executor's execute returns exactly what
`Tool.execute` returns. -/
theorem executor_unknown_parameter_and_delegation
    (t : Tool) (args : Dict) (k : String) (v : Value) :
    ((k, v) ∈ args → k ∉ t.parameters.map ToolParameter.name →
      ∃ m, GenericExecutor.execute t args = ToolResult.fail m ∧
        strContains m ("Unknown parameter: " ++ k))
    ∧ (validate_arguments t args = [] →
      GenericExecutor.execute t args = Tool.execute t args) := by
  constructor
  · intro hkv hk
    have hmem := unknown_msg_mem_validate t args k v hkv hk
    exact ⟨joinSep "; " (validate_arguments t args),
      executor_fail_of_validate_ne_nil t args (List.ne_nil_of_mem hmem),
      strContains_joinSep _ _ _ hmem⟩
  · intro hempty
    simp [GenericExecutor.execute, hempty]

theorem executor_unknown_parameter_and_delegation_witness :
    ∃ m, GenericExecutor.execute xTool [("z", Value.vnone)] =
        ToolResult.fail m ∧
      strContains m ("Unknown parameter: " ++ "z") :=
  (executor_unknown_parameter_and_delegation xTool [("z", Value.vnone)]
    "z" Value.vnone).1 (List.mem_singleton.mpr rfl) (by decide)

theorem schemaLoop_required (ps : List ToolParameter)
    (props : List (String × PropEntry)) (req : List String) :
    (schemaLoop ps props req).required =
      req ++ (ps.filter (fun p => p.required)).map ToolParameter.name := by
  induction ps generalizing props req with
  | nil => simp [schemaLoop]
  | cons p rest ih =>
    by_cases hreq : p.required = true
    · simp [schemaLoop, hreq, ih]
    · simp only [Bool.not_eq_true] at hreq
      simp [schemaLoop, hreq, ih]

theorem schemaLoop_properties_not_mem (ps : List ToolParameter)
    (props : List (String × PropEntry)) (req : List String) (n : String)
    (hn : n ∉ ps.map ToolParameter.name) :
    dictLookup (schemaLoop ps props req).properties n = dictLookup props n := by
  induction ps generalizing props req with
  | nil => simp [schemaLoop]
  | cons p rest ih =>
    simp only [List.map_cons, List.mem_cons, not_or] at hn
    rw [schemaLoop, ih _ _ hn.2, dictLookup_dictInsert,
      if_neg (fun hc => hn.1 hc.symm)]

theorem schemaLoop_properties_mem (ps : List ToolParameter)
    (props : List (String × PropEntry)) (req : List String)
    (p : ToolParameter) (hp : p ∈ ps)
    (hnodup : (ps.map ToolParameter.name).Nodup) :
    dictLookup (schemaLoop ps props req).properties p.name =
      some (mkProp p) := by
  induction ps generalizing props req with
  | nil => cases hp
  | cons q rest ih =>
    simp only [List.map_cons, List.nodup_cons] at hnodup
    rcases List.mem_cons.mp hp with rfl | h
    · rw [schemaLoop, schemaLoop_properties_not_mem _ _ _ _ hnodup.1,
        dictLookup_dictInsert, if_pos rfl]
    · exact ih _ _ h hnodup.2

/-- C5: for every Tool with distinct parameter names (the data-model
invariant), the JSON-Schema rendering's `required` list is exactly the names
of the parameters whose `required` flag is true — defaults not consulted —
and `properties` has an entry for every declared parameter carrying its type
string and description. -/
theorem to_json_schema_required_and_properties (t : Tool)
    (hnodup : (t.parameters.map ToolParameter.name).Nodup) :
    (t.to_json_schema).required =
      (t.parameters.filter (fun p => p.required)).map ToolParameter.name
    ∧ ∀ p ∈ t.parameters, ∃ e,
        dictLookup (t.to_json_schema).properties p.name = some e ∧
        e.type = p.type.value ∧ e.description = p.description := by
  refine ⟨?_, ?_⟩
  · simpa using schemaLoop_required t.parameters [] []
  · intro p hp
    exact ⟨mkProp p, schemaLoop_properties_mem t.parameters [] [] p hp hnodup,
      rfl, rfl⟩

theorem to_json_schema_required_and_properties_witness :
    (xbTool.to_json_schema).required =
      ([paramX, paramB].filter (fun p => p.required)).map ToolParameter.name
    ∧ ∀ p ∈ xbTool.parameters, ∃ e,
        dictLookup (xbTool.to_json_schema).properties p.name = some e ∧
        e.type = p.type.value ∧ e.description = p.description :=
  to_json_schema_required_and_properties xbTool (by
    simp [xbTool, paramX, paramB])

/-- C6: for every registry state and every Tool whose name is already
registered, `register` signals the duplicate by raising (the returned
exception message is `some`) and leaves the registry completely unchanged:
primary mapping, category index and tag index are exactly as before. -/
theorem register_duplicate_raises_unchanged (r : Registry) (t : Tool)
    (h : dictMem r.tools t.name = true) :
    (r.register t).1.isSome = true
    ∧ (r.register t).2.tools = r.tools
    ∧ (r.register t).2.categories = r.categories
    ∧ (r.register t).2.tags = r.tags := by
  simp [Registry.register, h]

theorem register_duplicate_raises_unchanged_witness :
    (((emptyRegistry.register t1).2.register t1).1.isSome = true)
    ∧ ((emptyRegistry.register t1).2.register t1).2.tools =
        (emptyRegistry.register t1).2.tools
    ∧ ((emptyRegistry.register t1).2.register t1).2.categories =
        (emptyRegistry.register t1).2.categories
    ∧ ((emptyRegistry.register t1).2.register t1).2.tags =
        (emptyRegistry.register t1).2.tags :=
  register_duplicate_raises_unchanged (emptyRegistry.register t1).2 t1 rfl

theorem mem_foldl_inter (rest : List NameSet) (s : NameSet) (x : String) :
    x ∈ rest.foldl (fun acc t => acc.filter (fun y => decide (y ∈ t))) s ↔
      x ∈ s ∧ ∀ t ∈ rest, x ∈ t := by
  induction rest generalizing s with
  | nil => simp
  | cons t ts ih =>
    rw [List.foldl_cons, ih]
    simp only [List.mem_filter, decide_eq_true_eq, List.forall_mem_cons]
    tauto

theorem mem_foldl_union (rest : List NameSet) (s : NameSet) (x : String) :
    x ∈ rest.foldl (fun acc t => acc ++ t.filter (fun y => decide (y ∉ acc))) s ↔
      x ∈ s ∨ ∃ t ∈ rest, x ∈ t := by
  induction rest generalizing s with
  | nil => simp
  | cons t ts ih =>
    rw [List.foldl_cons, ih]
    simp only [List.mem_append, List.mem_filter, decide_eq_true_eq,
      List.exists_mem_cons_iff]
    by_cases hxs : x ∈ s <;> simp [hxs] <;> tauto

/-- C8: `get_by_tags` with an empty tag list returns the empty result; with
`match_all` it returns exactly the registered tools whose names lie in every
listed tag's name-set; without it, those whose names lie in at least one. -/
theorem get_by_tags_spec (r : Registry) (tags : List String) (b : Bool)
    (tl : Tool) :
    r.get_by_tags [] b = []
    ∧ (tags ≠ [] →
      (tl ∈ r.get_by_tags tags true ↔
        ∃ n, dictLookup r.tools n = some tl ∧
          ∀ tg ∈ tags, n ∈ (dictLookup r.tags tg).getD [])
      ∧ (tl ∈ r.get_by_tags tags false ↔
        ∃ n, dictLookup r.tools n = some tl ∧
          ∃ tg ∈ tags, n ∈ (dictLookup r.tags tg).getD [])) := by
  refine ⟨rfl, fun hne => ⟨?_, ?_⟩⟩
  · cases tags with
    | nil => exact absurd rfl hne
    | cons tg tgs =>
      simp only [Registry.get_by_tags, List.isEmpty_cons, Bool.false_eq_true,
        if_false, List.map_cons, interAll, if_true, List.mem_filterMap]
      constructor
      · rintro ⟨n, hn, hlk⟩
        rw [mem_foldl_inter] at hn
        refine ⟨n, hlk, ?_⟩
        intro tg' htg'
        rcases List.mem_cons.mp htg' with rfl | h
        · exact hn.1
        · exact hn.2 _ (List.mem_map_of_mem _ h)
      · rintro ⟨n, hlk, hall⟩
        refine ⟨n, ?_, hlk⟩
        rw [mem_foldl_inter]
        refine ⟨hall tg (List.mem_cons_self _ _), ?_⟩
        intro s hs
        rcases List.mem_map.mp hs with ⟨tg', htg', rfl⟩
        exact hall tg' (List.mem_cons_of_mem _ htg')
  · cases tags with
    | nil => exact absurd rfl hne
    | cons tg tgs =>
      simp only [Registry.get_by_tags, List.isEmpty_cons, Bool.false_eq_true,
        if_false, List.map_cons, unionAll, List.mem_filterMap]
      constructor
      · rintro ⟨n, hn, hlk⟩
        rw [mem_foldl_union] at hn
        refine ⟨n, hlk, ?_⟩
        rcases hn with h | ⟨s, hs, hns⟩
        · exact ⟨tg, List.mem_cons_self _ _, h⟩
        · rcases List.mem_map.mp hs with ⟨tg', htg', rfl⟩
          exact ⟨tg', List.mem_cons_of_mem _ htg', hns⟩
      · rintro ⟨n, hlk, tg', htg', hn⟩
        refine ⟨n, ?_, hlk⟩
        rw [mem_foldl_union]
        rcases List.mem_cons.mp htg' with rfl | h
        · exact Or.inl hn
        · exact Or.inr ⟨_, List.mem_map_of_mem _ h, hn⟩

theorem get_by_tags_spec_witness :
    regXZ.get_by_tags [] false = []
    ∧ t1 ∈ regXZ.get_by_tags ["x", "z"] false :=
  ⟨(get_by_tags_spec regXZ ["x", "z"] false t1).1,
   (((get_by_tags_spec regXZ ["x", "z"] false t1).2 (by decide)).2).mpr
     ⟨"T1", rfl, "x", List.mem_cons_self _ _, by decide⟩⟩

/-- C9 counterexample: with the structured flag set and a succeeded result
whose data is `None` — not itself text — the rendering attaches no
`structuredContent` and collapses to the plain rendering, so the claim's
"exactly when the flag is set, the call succeeded, and the data is not
itself text" fails at this input. -/
theorem format_call_tool_result_none_counterexample :
    (ToolResult.ok Value.vnone).success = true
    ∧ (ToolResult.ok Value.vnone).data.isStr = false
    ∧ (MCPExecutor.format_call_tool_result (ToolResult.ok Value.vnone)
        true).structuredContent = none
    ∧ MCPExecutor.format_call_tool_result (ToolResult.ok Value.vnone) true =
        MCPExecutor.format_result (ToolResult.ok Value.vnone) :=
  ⟨rfl, rfl, rfl, rfl⟩

/-- C9 (amended): the structured variant attaches the raw data under
`structuredContent` alongside the text rendering exactly when the structured
flag is set, the call succeeded, and the data is present (not `None`) and not
itself text; in every other case the output equals the plain
`format_result` rendering. -/
theorem format_call_tool_result_spec (result : ToolResult)
    (structured : Bool) :
    MCPExecutor.format_call_tool_result result structured =
      if structured && result.success && !(result.data.isNone)
          && !(result.data.isStr) then
        { MCPExecutor.format_result result with
            structuredContent := some result.data }
      else MCPExecutor.format_result result := by
  unfold MCPExecutor.format_call_tool_result
  by_cases h1 : (structured && result.success && !(result.data.isNone)) = true
  · by_cases h2 : result.data.isStr = true
    · simp [h1, h2]
    · simp only [Bool.not_eq_true] at h2
      simp [h1, h2]
  · simp only [Bool.not_eq_true] at h1
    simp [h1, Bool.and_eq_false_iff.mpr (Or.inl h1)]

theorem mem_setAdd (s : NameSet) (x n : String) :
    n ∈ setAdd s x ↔ n ∈ s ∨ n = x := by
  unfold setAdd
  by_cases h : x ∈ s
  · simp only [h, if_true]
    constructor
    · exact Or.inl
    · rintro (hn | rfl) <;> assumption
  · simp [h]

theorem mem_of_mem_setDiscard (s : NameSet) (x n : String)
    (h : n ∈ setDiscard s x) : n ∈ s :=
  (List.mem_filter.mp h).1

theorem not_mem_setDiscard_self (s : NameSet) (x : String) :
    x ∉ setDiscard s x := by
  intro h
  have := (List.mem_filter.mp h).2
  simp at this

theorem mapAddName_mem_names (m : List (String × NameSet)) (k x : String)
    (e : String × NameSet) (he : e ∈ mapAddName m k x) (n : String)
    (hn : n ∈ e.2) :
    (∃ s, (e.1, s) ∈ m ∧ n ∈ s) ∨ (n = x ∧ e.1 = k) := by
  induction m with
  | nil =>
    rcases List.mem_singleton.mp he with rfl
    rcases (mem_setAdd [] x n).mp hn with h | rfl
    · cases h
    · exact Or.inr ⟨rfl, rfl⟩
  | cons f t ih =>
    obtain ⟨k1, s1⟩ := f
    by_cases h1 : k1 = k
    · subst h1
      simp only [mapAddName, if_pos rfl] at he
      rcases List.mem_cons.mp he with rfl | hmem
      · rcases (mem_setAdd s1 x n).mp hn with h | rfl
        · exact Or.inl ⟨s1, List.mem_cons_self _ _, h⟩
        · exact Or.inr ⟨rfl, rfl⟩
      · exact Or.inl ⟨e.2, List.mem_cons_of_mem _ hmem, hn⟩
    · simp only [mapAddName, if_neg h1] at he
      rcases List.mem_cons.mp he with rfl | hmem
      · exact Or.inl ⟨s1, List.mem_cons_self _ _, hn⟩
      · rcases ih hmem with ⟨s, hs, hns⟩ | h
        · exact Or.inl ⟨s, List.mem_cons_of_mem _ hs, hns⟩
        · exact Or.inr h

theorem foldl_mapAddName_mem_names (tags : List String)
    (m : List (String × NameSet)) (x : String) (e : String × NameSet)
    (he : e ∈ tags.foldl (fun acc tg => mapAddName acc tg x) m) (n : String)
    (hn : n ∈ e.2) :
    (∃ s, (e.1, s) ∈ m ∧ n ∈ s) ∨ (n = x ∧ e.1 ∈ tags) := by
  induction tags generalizing m with
  | nil => exact Or.inl ⟨e.2, he, hn⟩
  | cons tg ts ih =>
    rcases ih (mapAddName m tg x) he with ⟨s, hs, hns⟩ | ⟨hx, htg⟩
    · rcases mapAddName_mem_names m tg x (e.1, s) hs n hns with
        ⟨s', hs', hns'⟩ | ⟨hx, hk⟩
      · exact Or.inl ⟨s', hs', hns'⟩
      · exact Or.inr ⟨hx, by rw [hk]; exact List.mem_cons_self _ _⟩
    · exact Or.inr ⟨hx, List.mem_cons_of_mem _ htg⟩

theorem mapDiscardName_mem (m : List (String × NameSet)) (k x : String)
    (e : String × NameSet) (he : e ∈ mapDiscardName m k x) :
    ∃ s, (e.1, s) ∈ m ∧ (∀ n ∈ e.2, n ∈ s) ∧ (e.1 = k → x ∉ e.2) := by
  rcases List.mem_map.mp he with ⟨e0, he0, rfl⟩
  by_cases h : e0.1 = k
  · simp only [h, if_pos rfl]
    exact ⟨e0.2, by simpa [← h] using he0,
      fun n hn => mem_of_mem_setDiscard _ _ _ hn,
      fun _ => not_mem_setDiscard_self _ _⟩
  · simp only [if_neg h]
    exact ⟨e0.2, he0, fun n hn => hn, fun hk => absurd hk h⟩

theorem foldl_mapDiscardName_mem (tags : List String)
    (m : List (String × NameSet)) (x : String) (e : String × NameSet)
    (he : e ∈ tags.foldl (fun acc tg => mapDiscardName acc tg x) m) :
    ∃ s, (e.1, s) ∈ m ∧ (∀ n ∈ e.2, n ∈ s) ∧ (e.1 ∈ tags → x ∉ e.2) := by
  induction tags generalizing m with
  | nil =>
    exact ⟨e.2, he, fun n hn => hn, fun h => absurd h (List.not_mem_nil _)⟩
  | cons tg ts ih =>
    obtain ⟨s, hsmem, hsub, htail⟩ := ih (mapDiscardName m tg x) he
    obtain ⟨s0, hs0, hsub0, hdisc⟩ := mapDiscardName_mem m tg x (e.1, s) hsmem
    refine ⟨s0, hs0, fun n hn => hsub0 n (hsub n hn), ?_⟩
    intro hk hx
    rcases List.mem_cons.mp hk with rfl | h
    · exact hdisc rfl (hsub x hx)
    · exact htail h hx

theorem dictLookup_eraseKey_ne {α : Type} (d : List (String × α))
    (k m : String) (h : m ≠ k) :
    dictLookup (eraseKey d k) m = dictLookup d m := by
  induction d with
  | nil => rfl
  | cons e t ih =>
    obtain ⟨k1, v1⟩ := e
    simp only [eraseKey, List.filter_cons] at ih ⊢
    by_cases h1 : k1 = k
    · have h2 : ¬k1 = m := fun hc => h (hc.symm.trans h1)
      simp [h1, h2, ih, dictLookup, Ne.symm h]
    · by_cases h2 : k1 = m
      · simp [h1, h2, dictLookup, h]
      · simp [h1, h2, ih, dictLookup]

/-- Registration preserves the reachable-state invariant. -/
theorem regInv_register (r : Registry) (t : Tool) (hinv : RegInv r) :
    RegInv (r.register t).2 := by
  unfold Registry.register
  by_cases hmem : dictMem r.tools t.name = true
  · simpa [hmem] using hinv
  · have hnone : dictLookup r.tools t.name = none := by
      unfold dictMem at hmem
      cases hlk : dictLookup r.tools t.name with
      | none => rfl
      | some u => rw [hlk] at hmem; simp at hmem
    simp only [hmem, Bool.false_eq_true, if_false]
    have hlkup : ∀ (n : String) (u : Tool), dictLookup r.tools n = some u →
        dictLookup (dictInsert r.tools t.name t) n = some u := by
      intro n u hu
      rw [dictLookup_dictInsert]
      rcases eq_or_ne t.name n with rfl | hne
      · rw [hu] at hnone; cases hnone
      · rw [if_neg hne]; exact hu
    constructor
    · intro e he n hn
      have hfromOld : (e.1, e.2) ∈ r.categories →
          ∃ u, dictLookup (dictInsert r.tools t.name t) n = some u ∧
            u.category = some e.1 ∧ e.1.isEmpty = false := by
        intro hmem'
        obtain ⟨u, hu, hcat, hneemp⟩ := hinv.1 (e.1, e.2) hmem' n hn
        exact ⟨u, hlkup n u hu, hcat, hneemp⟩
      rcases hc : t.category with _ | c
      · simp only [hc] at he
        exact hfromOld he
      · simp only [hc] at he
        by_cases hce : c.isEmpty
        · rw [if_pos hce] at he
          exact hfromOld he
        · rw [if_neg hce] at he
          rcases mapAddName_mem_names r.categories c t.name (e.1, e.2) he n hn
            with ⟨s, hs, hns⟩ | ⟨rfl, hk⟩
          · obtain ⟨u, hu, hcat, hneemp⟩ := hinv.1 (e.1, s) hs n hns
            exact ⟨u, hlkup n u hu, hcat, hneemp⟩
          · refine ⟨t, ?_, ?_, ?_⟩
            · rw [dictLookup_dictInsert, if_pos rfl]
            · rw [hc, hk]
            · rw [hk]
              exact Bool.of_not_eq_true hce
    · intro e he n hn
      rcases foldl_mapAddName_mem_names t.tags r.tags t.name (e.1, e.2) he n hn
        with ⟨s, hs, hns⟩ | ⟨rfl, htg⟩
      · obtain ⟨u, hu, htag⟩ := hinv.2 (e.1, s) hs n hns
        exact ⟨u, hlkup n u hu, htag⟩
      · exact ⟨t, by rw [dictLookup_dictInsert, if_pos rfl], htg⟩

/-- Unregistration preserves the reachable-state invariant. -/
theorem regInv_unregister (r : Registry) (n : String) (hinv : RegInv r) :
    RegInv (r.unregister n).2 := by
  unfold Registry.unregister
  cases hlk : dictLookup r.tools n with
  | none => simpa using hinv
  | some t =>
    constructor
    · intro e he m hm
      have hfromOld : (e.1, e.2) ∈ r.categories → t.category ≠ some e.1 →
          ∃ u, dictLookup (eraseKey r.tools n) m = some u ∧
            u.category = some e.1 ∧ e.1.isEmpty = false := by
        intro hmem' hcat'
        obtain ⟨u, hu, hcat, hneemp⟩ := hinv.1 (e.1, e.2) hmem' m hm
        rcases eq_or_ne m n with rfl | hne
        · rw [hu] at hlk
          cases hlk
          exact absurd hcat hcat'
        · exact ⟨u, by rw [dictLookup_eraseKey_ne _ _ _ hne]; exact hu,
            hcat, hneemp⟩
      rcases hc : t.category with _ | c
      · simp only [hc] at he
        exact hfromOld he (by rw [hc]; simp)
      · simp only [hc] at he
        by_cases hce : c.isEmpty
        · rw [if_pos hce] at he
          refine hfromOld he ?_
          rw [hc]
          intro hcontra
          obtain ⟨u, hu, hcat, hneemp⟩ := hinv.1 (e.1, e.2) he m hm
          rw [← Option.some_inj.mp hcontra] at hneemp
          rw [hce] at hneemp
          cases hneemp
        · rw [if_neg hce] at he
          obtain ⟨s, hs, hsub, hdisc⟩ :=
            mapDiscardName_mem r.categories c n (e.1, e.2) he
          obtain ⟨u, hu, hcat, hneemp⟩ := hinv.1 (e.1, s) hs m (hsub m hm)
          rcases eq_or_ne m n with rfl | hne
          · rw [hu] at hlk
            cases hlk
            rw [hc] at hcat
            exact absurd hm (hdisc (Option.some_inj.mp hcat.symm))
          · exact ⟨u, by rw [dictLookup_eraseKey_ne _ _ _ hne]; exact hu,
              hcat, hneemp⟩
    · intro e he m hm
      obtain ⟨s, hs, hsub, hdisc⟩ :=
        foldl_mapDiscardName_mem t.tags r.tags n (e.1, e.2) he
      obtain ⟨u, hu, htag⟩ := hinv.2 (e.1, s) hs m (hsub m hm)
      rcases eq_or_ne m n with rfl | hne
      · rw [hu] at hlk
        cases hlk
        exact absurd hm (hdisc htag)
      · exact ⟨u, by rw [dictLookup_eraseKey_ne _ _ _ hne]; exact hu, htag⟩

/-- Every state reachable from a fresh registry satisfies the invariant. -/
theorem regInv_runOps (ops : List ROp) : RegInv (runOps ops) := by
  have hstep : ∀ (l : List ROp) (r : Registry), RegInv r →
      RegInv (l.foldl applyOp r) := by
    intro l
    induction l with
    | nil => exact fun r h => h
    | cons op l ih =>
      intro r h
      rw [List.foldl_cons]
      refine ih _ ?_
      cases op with
      | reg t => exact regInv_register r t h
      | unreg n => exact regInv_unregister r n h
  refine hstep ops emptyRegistry ⟨?_, ?_⟩ <;>
    · intro e he
      cases he

/-- C7: in every registry state reachable from an empty registry by register
and unregister operations, every tool name appearing in the category index or
in the tag index is a key of the primary name-to-Tool mapping. -/
theorem index_names_registered (ops : List ROp) (k : String) (s : NameSet)
    (n : String)
    (hks : (k, s) ∈ (runOps ops).categories ∨ (k, s) ∈ (runOps ops).tags)
    (hn : n ∈ s) :
    (dictLookup (runOps ops).tools n).isSome = true := by
  have hinv := regInv_runOps ops
  rcases hks with h | h
  · obtain ⟨u, hu, -⟩ := hinv.1 (k, s) h n hn
    rw [hu]; rfl
  · obtain ⟨u, hu, -⟩ := hinv.2 (k, s) h n hn
    rw [hu]; rfl

theorem index_names_registered_witness :
    (dictLookup (runOps [ROp.reg t1, ROp.reg t2]).tools "T1").isSome = true :=
  index_names_registered [ROp.reg t1, ROp.reg t2] "x" ["T1"] "T1"
    (Or.inr (by decide)) (by decide)

theorem heapGet_heapSet_ne (h : Heap) (r r' : Nat) (d : Dict)
    (hne : r' ≠ r) : heapGet (heapSet h r d) r' = heapGet h r' := by
  induction h generalizing r r' with
  | nil => simp [heapGet, heapSet]
  | cons x xs ih =>
    cases r with
    | zero =>
      cases r' with
      | zero => exact absurd rfl hne
      | succ n => simp [heapGet, heapSet]
    | succ m =>
      cases r' with
      | zero => simp [heapGet, heapSet]
      | succ n =>
        simp only [heapGet, heapSet, List.set_cons_succ, List.getD_cons_succ]
        exact ih m n (fun hc => hne (congrArg Nat.succ hc))

theorem heapGet_heapSet_self (h : Heap) (r : Nat) (d : Dict)
    (hr : r < h.length) : heapGet (heapSet h r d) r = d := by
  induction h generalizing r with
  | nil => cases hr
  | cons x xs ih =>
    cases r with
    | zero => simp [heapGet, heapSet]
    | succ m =>
      simp only [heapGet, heapSet, List.set_cons_succ, List.getD_cons_succ]
      exact ih m (Nat.lt_of_succ_lt_succ hr)

theorem heapGet_append_lt (h : Heap) (d : Dict) (r : Nat)
    (hr : r < h.length) : heapGet (h ++ [d]) r = heapGet h r := by
  induction h generalizing r with
  | nil => cases hr
  | cons x xs ih =>
    cases r with
    | zero => rfl
    | succ m =>
      simp only [List.cons_append, heapGet, List.getD_cons_succ]
      exact ih m (Nat.lt_of_succ_lt_succ hr)

theorem heapGet_append_self (h : Heap) (d : Dict) :
    heapGet (h ++ [d]) h.length = d := by
  induction h with
  | nil => rfl
  | cons x xs ih =>
    simpa only [List.cons_append, heapGet, List.length_cons,
      List.getD_cons_succ] using ih

/-- The parameter loop mutates only the dict object it was given. -/
theorem execLoopRef_frame (hdl : Handler) (params : List ToolParameter)
    (hp : Heap) (r r' : Nat) (hne : r' ≠ r) :
    heapGet (execLoopRef hdl params hp r).2 r' = heapGet hp r' := by
  induction params generalizing hp with
  | nil => rfl
  | cons p rest ih =>
    simp only [execLoopRef]
    by_cases h1 : (p.required && !(dictMem (heapGet hp r) p.name)) = true
    · by_cases h2 : p.default.isNone = true
      · simp [h1, h2]
      · simp only [h1, if_true, h2, Bool.false_eq_true, if_false]
        rw [ih, heapGet_heapSet_ne _ _ _ _ hne]
    · simp only [h1, Bool.false_eq_true, if_false]
      exact ih hp

/-- The heap-based loop computes the same result as the pure one on the dict
stored at the reference. -/
theorem execLoopRef_fst (hdl : Handler) (params : List ToolParameter)
    (hp : Heap) (r : Nat) (hr : r < hp.length) :
    (execLoopRef hdl params hp r).1 = execLoop hdl params (heapGet hp r) := by
  induction params generalizing hp with
  | nil => rfl
  | cons p rest ih =>
    simp only [execLoopRef, execLoop]
    by_cases h1 : (p.required && !(dictMem (heapGet hp r) p.name)) = true
    · by_cases h2 : p.default.isNone = true
      · simp [h1, h2]
      · simp only [h1, if_true, h2, Bool.false_eq_true, if_false]
        rw [ih _ (by simpa [heapSet] using hr), heapGet_heapSet_self _ _ _ hr]
    · simp only [h1, Bool.false_eq_true, if_false]
      exact ih hp hr

/-- C10: an Executor's execute never mutates the caller's arguments dict:
`tool.execute(**arguments)` splats the caller's dict into a freshly
allocated kwargs dict, so after the call the dict object the caller passed
in is unchanged — while the call's result is exactly the pure executor
semantics on the caller's entries. -/
theorem executor_never_mutates_caller_arguments (t : Tool) (hp : Heap)
    (r : Nat) (hr : r < hp.length) :
    heapGet (GenericExecutor.executeRef t hp r).2 r = heapGet hp r
    ∧ (GenericExecutor.executeRef t hp r).1 =
        GenericExecutor.execute t (heapGet hp r) := by
  unfold GenericExecutor.executeRef GenericExecutor.execute
  by_cases hval : (validate_arguments t (heapGet hp r)).isEmpty = true
  · simp only [hval, Bool.not_true, Bool.false_eq_true, if_false]
    unfold Tool.executeRef Tool.execute
    cases t.handler with
    | none => exact ⟨heapGet_append_lt hp _ r hr, rfl⟩
    | some hdl =>
      constructor
      · rw [execLoopRef_frame hdl t.parameters (hp ++ [heapGet hp r])
          hp.length r (Nat.ne_of_lt hr)]
        exact heapGet_append_lt hp _ r hr
      · rw [execLoopRef_fst hdl t.parameters (hp ++ [heapGet hp r])
          hp.length (by simp), heapGet_append_self]
  · simp [hval]

theorem executor_never_mutates_caller_arguments_witness :
    heapGet
      (GenericExecutor.executeRef xTool [[("x", Value.vstr "a")]] 0).2 0 =
      heapGet [[("x", Value.vstr "a")]] 0 :=
  (executor_never_mutates_caller_arguments xTool [[("x", Value.vstr "a")]] 0
    (by decide)).1

end ToolMaster
